import Mathlib

/-!
Verification development for the exam-paper generation pipeline
(backend services: the LangGraph paper generator and the FAISS-backed
embedding service).

The Python sources are shallowly embedded: strings are lists of
characters, dictionaries holding question records become a structure
whose fields mirror the JSON schema, Python ints become `Int` (or `Nat`
where the source value is provably non-negative, e.g. regex-extracted
counts), and the regular-expression matching performed with `re` is
embedded as an explicit deterministic scanner.  For every pattern used
by the source the quantified subexpressions are followed by a token
that cannot extend them (a greedy digit run is followed by spaces, a
greedy space run by a letter, an optional trailing letter by a space or
a different letter), so the backtracking-free greedy scanner below
computes exactly the Python `re` semantics on all inputs.
-/

set_option maxRecDepth 10000

abbrev Str := List Char

/-- ASCII lower-casing of one character, mirroring `str.lower()` on the
ASCII prompts handled by the service. -/
def lowerChar (c : Char) : Char :=
  if 'A' ≤ c ∧ c ≤ 'Z' then Char.ofNat (c.toNat + 32) else c

def toLowerStr (s : Str) : Str := s.map lowerChar

/-- Python regex `\d` (ASCII range used by the service). -/
def isDigitCh (c : Char) : Bool := '0' ≤ c && c ≤ '9'

/-- Python regex `\s`: space, tab, newline, carriage return, vertical
tab, form feed. -/
def isSpaceCh (c : Char) : Bool :=
  c == ' ' || c == '\t' || c == '\n' || c == '\r' ||
  c == Char.ofNat 11 || c == Char.ofNat 12

/-- `hasPfx p s` holds when `p` is an initial segment of `s`. -/
def hasPfx : Str → Str → Bool
  | [], _ => true
  | _ :: _, [] => false
  | a :: p, b :: s => a == b && hasPfx p s

/-- Python `p in s` substring containment. -/
def containsSub : Str → Str → Bool
  | [], p => hasPfx p []
  | s@(_ :: t), p => hasPfx p s || containsSub t p

/-- Python `s.replace(p, r)`: non-overlapping left-to-right replacement.
The service only ever calls this with a non-empty pattern; for an empty
pattern this embedding returns `s` unchanged. -/
def replaceAll : Str → Str → Str → Str
  | s, [], _ => s
  | [], _ :: _, _ => []
  | s@(c :: t), p@(_ :: ps), r =>
    if hasPfx p s then r ++ replaceAll (t.drop ps.length) p r
    else c :: replaceAll t p r
termination_by s _ _ => s.length
decreasing_by
  · simp only [List.length_drop, List.length_cons]
    omega
  · simp only [List.length_cons]
    omega

/- String constants used by the pipeline, written as character lists so
that head-character case analysis is definitional. -/

def sMCQ : Str := ['M', 'C', 'Q']
def sShortAnswer : Str := "Short Answer".data
def sLongAnswer : Str := "Long Answer".data
def sAParen : Str := ['A', ')']
def nlChar : Char := '\n'
def sNl : Str := [nlChar]
def sCommaB : Str := [',', ' ', 'B', ')']
def sCommaC : Str := [',', ' ', 'C', ')']
def sCommaD : Str := [',', ' ', 'D', ')']
def sNlB : Str := ['\n', 'B', ')']
def sNlC : Str := ['\n', 'C', ')']
def sNlD : Str := ['\n', 'D', ')']
def sNlA : Str := ['\n', 'A', ')']
def sGenerated : Str := "[Generated] ".data
def sOptions : Str := "\nA) Option A\nB) Option B\nC) Option C\nD) Option D".data
def sAdditional : Str := "Additional question: ".data
def sDots : Str := ['.', '.', '.']
def sQuestionGeneration : Str := "question_generation".data
def sError : Str := "error".data
def sAssembly : Str := "assembly".data
def sVerification : Str := "verification".data

def kOf : Str := "of".data
def kEach : Str := "each".data
def kBearing : Str := "bearing".data
def kWith : Str := "with".data
def kMark : Str := "mark".data
def kMcq : Str := "mcq".data
def kShort : Str := "short".data
def kAnswer : Str := "answer".data
def kQuestion : Str := "question".data
def kLong : Str := "long".data
def kProblem : Str := "problem".data
def kMultiple : Str := "multiple".data
def kChoice : Str := "choice".data
def kMultipleChoiceSub : Str := "multiple choice".data

/- Elementary scanning combinators over `Str`, used to embed the regex
patterns of `_calculate_marks_distribution`,
`_extract_question_type_requirements` and the verifier count regex. -/

/-- Greedy continuation of a digit run, accumulating its decimal value
(mirrors `int(match.group(...))`). -/
def pDigitsGo (acc : Nat) : Str → Nat × Str
  | [] => (acc, [])
  | s@(c :: t) =>
    if isDigitCh c then pDigitsGo (acc * 10 + (c.toNat - 48)) t else (acc, s)

/-- `(\d+)`: at least one digit, greedy. -/
def pDigits : Str → Option (Nat × Str)
  | [] => none
  | c :: t =>
    if isDigitCh c then some (pDigitsGo (c.toNat - 48) t) else none

/-- `\s*`: greedy, always succeeds. -/
def pSpaces0 : Str → Str
  | [] => []
  | s@(c :: t) => if isSpaceCh c then pSpaces0 t else s

/-- `\s+`: at least one space then greedy. -/
def pSpaces1 : Str → Option Str
  | [] => none
  | c :: t => if isSpaceCh c then some (pSpaces0 t) else none

/-- A literal word. -/
def pLit (lit : Str) (s : Str) : Option Str :=
  if hasPfx lit s then some (s.drop lit.length) else none

/-- `s?`: optional trailing letter `s`, greedy. -/
def pOptS : Str → Str
  | 's' :: t => t
  | s => s

/-- The question-type alternation
`mcqs?|short\s*(?:answer\s*)?questions?|long\s*(?:answer\s*)?questions?`
(with `problems?` appended when `withProblems` is set, as in the first
planner pattern).  The alternatives begin with pairwise distinct
letters, so first-match selection equals the regex semantics. -/
def pTypeCore (withProblems : Bool) (s : Str) : Option Str :=
  match pLit kMcq s with
  | some r => some (pOptS r)
  | none =>
    match pLit kShort s with
    | some r =>
      let r1 := pSpaces0 r
      let r2 := match pLit kAnswer r1 with
        | some ra => pSpaces0 ra
        | none => r1
      (pLit kQuestion r2).map pOptS
    | none =>
      match pLit kLong s with
      | some r =>
        let r1 := pSpaces0 r
        let r2 := match pLit kAnswer r1 with
          | some ra => pSpaces0 ra
          | none => r1
        (pLit kQuestion r2).map pOptS
      | none =>
        if withProblems then (pLit kProblem s).map pOptS else none

/-- `marks?`. -/
def pMarksWord (s : Str) : Option Str := (pLit kMark s).map pOptS

/-- Consumed length of a partial scan that started on `s` and stopped
with `rest` remaining. -/
def consumed (s rest : Str) : Nat := s.length - rest.length

/-- Planner pattern 1:
`(\d+)\s*(mcqs?|short...questions?|long...questions?|problems?)\s+of\s+(\d+)\s*marks?\s*each`.
Returns `(count, marks, match length)`. -/
def pPat1 (s : Str) : Option (Nat × Nat × Nat) := do
  let (count, r) ← pDigits s
  let r := pSpaces0 r
  let r ← pTypeCore true r
  let r ← pSpaces1 r
  let r ← pLit kOf r
  let r ← pSpaces1 r
  let (marks, r) ← pDigits r
  let r := pSpaces0 r
  let r ← pMarksWord r
  let r := pSpaces0 r
  let r ← pLit kEach r
  pure (count, marks, consumed s r)

/-- Planner pattern 2: `(\d+)\s*(type)\s+each\s+bearing\s+(\d+)\s*marks?`. -/
def pPat2 (s : Str) : Option (Nat × Nat × Nat) := do
  let (count, r) ← pDigits s
  let r := pSpaces0 r
  let r ← pTypeCore false r
  let r ← pSpaces1 r
  let r ← pLit kEach r
  let r ← pSpaces1 r
  let r ← pLit kBearing r
  let r ← pSpaces1 r
  let (marks, r) ← pDigits r
  let r := pSpaces0 r
  let r ← pMarksWord r
  pure (count, marks, consumed s r)

/-- Planner pattern 3: `(\d+)\s*(type)\s+bearing\s+(\d+)\s*marks?\s*each`. -/
def pPat3 (s : Str) : Option (Nat × Nat × Nat) := do
  let (count, r) ← pDigits s
  let r := pSpaces0 r
  let r ← pTypeCore false r
  let r ← pSpaces1 r
  let r ← pLit kBearing r
  let r ← pSpaces1 r
  let (marks, r) ← pDigits r
  let r := pSpaces0 r
  let r ← pMarksWord r
  let r := pSpaces0 r
  let r ← pLit kEach r
  pure (count, marks, consumed s r)

/-- Planner pattern 4: `(\d+)\s*(type)\s+with\s+(\d+)\s*marks?`. -/
def pPat4 (s : Str) : Option (Nat × Nat × Nat) := do
  let (count, r) ← pDigits s
  let r := pSpaces0 r
  let r ← pTypeCore false r
  let r ← pSpaces1 r
  let r ← pLit kWith r
  let r ← pSpaces1 r
  let (marks, r) ← pDigits r
  let r := pSpaces0 r
  let r ← pMarksWord r
  pure (count, marks, consumed s r)

/-- Planner pattern 5 (loose): `(\d+)\s*(type)\s+(\d+)\s*marks?`. -/
def pPat5 (s : Str) : Option (Nat × Nat × Nat) := do
  let (count, r) ← pDigits s
  let r := pSpaces0 r
  let r ← pTypeCore false r
  let r ← pSpaces1 r
  let (marks, r) ← pDigits r
  let r := pSpaces0 r
  let r ← pMarksWord r
  pure (count, marks, consumed s r)

/-- `re.finditer` worker: scan left to right, record each match as
`(start position, count, marks)` and resume after it (a zero-width
match advances one position, matching Python).  The fuel argument is
initialized to the string length; every step consumes at least one
character, so the fuel never runs out before the string does (it only
makes the recursion structural so the kernel can evaluate it). -/
def finditerGo (p : Str → Option (Nat × Nat × Nat)) :
    Nat → Str → Nat → List (Nat × Nat × Nat)
  | 0, _, _ => []
  | _ + 1, [], _ => []
  | fuel + 1, s@(_ :: t), pos =>
    match p s with
    | some (c, m, len) =>
      (pos, c, m) :: finditerGo p fuel (t.drop (len - 1)) (pos + max len 1)
    | none => finditerGo p fuel t (pos + 1)

def finditerP (p : Str → Option (Nat × Nat × Nat)) (s : Str) (pos : Nat) :
    List (Nat × Nat × Nat) :=
  finditerGo p s.length s pos

/-- Walk the pattern list in order, keeping only matches whose start
position was not already claimed by an earlier pattern (the
`used_positions` set of the source). -/
def gatherGo : List (Str → Option (Nat × Nat × Nat)) → Str → List Nat → List (Nat × Nat × Nat)
  | [], _, _ => []
  | p :: ps, cs, used =>
    let ms := finditerP p cs 0
    let fresh := ms.filter (fun m => !(used.contains m.1))
    fresh ++ gatherGo ps cs (used ++ ms.map (fun m => m.1))

/-- Stable insertion keeping ascending start positions (equal keys keep
their original relative order, like Python `list.sort`). -/
def insertByPos (x : Nat × Nat × Nat) : List (Nat × Nat × Nat) → List (Nat × Nat × Nat)
  | [] => [x]
  | h :: t => if h.1 ≤ x.1 then h :: insertByPos x t else x :: h :: t

def sortByPos : List (Nat × Nat × Nat) → List (Nat × Nat × Nat)
  | [] => []
  | x :: t => insertByPos x (sortByPos t)

/-- The `(count, marks)` groups detected by the five structured planner
patterns, in text order (the prompt is lower-cased first, as in the
source). -/
def parseGroups (prompt : Str) : List (Nat × Nat) :=
  (sortByPos (gatherGo [pPat1, pPat2, pPat3, pPat4, pPat5] (toLowerStr prompt) [])).map
    (fun g => (g.2.1, g.2.2))

/-- Expand each group into `count` repetitions of `marks`. -/
def expandGroups : List (Nat × Nat) → List Nat
  | [] => []
  | (c, m) :: rest => List.replicate c m ++ expandGroups rest

/-- One `+1` on each of the first `k` entries (the source walks the
trailing slots of the plan, i.e. the leading slots of its reverse). -/
def incFirstN : Nat → List Nat → List Nat
  | 0, l => l
  | _ + 1, [] => []
  | k + 1, x :: t => (x + 1) :: incFirstN k t

/-- One guarded `-1` on each of the first `k` entries: a slot already at
1 mark is skipped (but still consumes its loop iteration). -/
def decFirstN : Nat → List Nat → List Nat
  | 0, l => l
  | _ + 1, [] => []
  | k + 1, x :: t => (if 1 < x then x - 1 else x) :: decFirstN k t

/-- Reconciliation of a structured plan against the required total:
one unit per trailing slot, for `min(diff, len)` slots. -/
def reconcile (plan : List Nat) (total : Nat) : List Nat :=
  if plan.sum = total then plan
  else if plan.sum < total then (incFirstN (total - plan.sum) plan.reverse).reverse
  else (decFirstN (plan.sum - total) plan.reverse).reverse

/-- The loose fallback `re.search(r'(\d+)\s*(?:questions?|mcqs?|problems?)', ...)`. -/
def pLooseCount (s : Str) : Option Nat := do
  let (count, r) ← pDigits s
  let r := pSpaces0 r
  match pLit kQuestion r with
  | some _ => pure count
  | none =>
    match pLit kMcq r with
    | some _ => pure count
    | none =>
      match pLit kProblem r with
      | some _ => pure count
      | none => none

/-- `re.search`: the match starting at the leftmost feasible position. -/
def scanFirst (p : Str → Option Nat) : Str → Option Nat
  | [] => none
  | s@(_ :: t) =>
    match p s with
    | some v => some v
    | none => scanFirst p t

def searchLooseCount (low : Str) : Option Nat := scanFirst pLooseCount low

/-- Default slot count when no count is found in the prompt. -/
def defaultNumQuestions (low : Str) (total_marks : Nat) : Nat :=
  if containsSub low kMcq || containsSub low kMultipleChoiceSub then
    max 10 (total_marks / 2)
  else if total_marks ≤ 20 then 4
  else if total_marks ≤ 50 then 10
  else 10

/-- Even division of the total over `n` slots, remainder to the leading
slots. -/
def evenSplit (n total_marks : Nat) : List Nat :=
  List.replicate (total_marks % n) (total_marks / n + 1) ++
    List.replicate (n - total_marks % n) (total_marks / n)

/-- `_calculate_marks_distribution`.  The result is `none` exactly when
the source raises `ZeroDivisionError`: a loose count of `0` extracted
from the prompt makes `total_marks // num_questions` divide by zero. -/
def calculate_marks_distribution (total_marks : Nat) (prompt : Str) : Option (List Nat) :=
  let groups := parseGroups prompt
  if groups ≠ [] then some (reconcile (expandGroups groups) total_marks)
  else
    match searchLooseCount (toLowerStr prompt) with
    | some n => if n = 0 then none else some (evenSplit n total_marks)
    | none => some (evenSplit (defaultNumQuestions (toLowerStr prompt) total_marks) total_marks)

/-!
## Data model

A generated question record.  The source passes questions around as
dictionaries and reads every field it uses either directly (`q["marks"]`
after the corrector has run) or through `.get` with a default
(`q.get("marks", 0)`, `q.get("question_text", "")`), so a record with
total fields where an absent key is represented by the default value is
observationally equivalent for every operation modelled here.
-/

structure Question where
  question_text : Str
  blooms_level : Str
  question_type : Str
  marks : Int
  answer_key : Str
  unit : Option Str
deriving DecidableEq

def sumMarks (qs : List Question) : Int := (qs.map Question.marks).sum

/-!
## `_extract_question_type_requirements`
-/

/-- `(\d+)\s*mcqs?` at one position. -/
def pMcqCount (s : Str) : Option Nat := do
  let (count, r) ← pDigits s
  let r := pSpaces0 r
  let _ ← pLit kMcq r
  pure count

/-- `(\d+)\s*multiple\s*choice` at one position. -/
def pMultipleChoiceCount (s : Str) : Option Nat := do
  let (count, r) ← pDigits s
  let r := pSpaces0 r
  let r ← pLit kMultiple r
  let r := pSpaces0 r
  let _ ← pLit kChoice r
  pure count

/-- `(\d+)\s*short\s*(?:answer\s*)?questions?` at one position. -/
def pShortCount (s : Str) : Option Nat := do
  let (count, r) ← pDigits s
  let r := pSpaces0 r
  let r ← pLit kShort r
  let r1 := pSpaces0 r
  let r2 := match pLit kAnswer r1 with
    | some ra => pSpaces0 ra
    | none => r1
  let _ ← pLit kQuestion r2
  pure count

/-- `(\d+)\s*long\s*(?:answer\s*)?questions?` at one position. -/
def pLongCount (s : Str) : Option Nat := do
  let (count, r) ← pDigits s
  let r := pSpaces0 r
  let r ← pLit kLong r
  let r1 := pSpaces0 r
  let r2 := match pLit kAnswer r1 with
    | some ra => pSpaces0 ra
    | none => r1
  let _ ← pLit kQuestion r2
  pure count

/-- For each question type, the first of its patterns that matches
contributes `(type, count)`; the requirement list keeps the source's
dict order MCQ, Short Answer, Long Answer. -/
def extract_question_type_requirements (prompt : Str) : List (Str × Nat) :=
  let low := toLowerStr prompt
  let mcqReq := match scanFirst pMcqCount low with
    | some c => [(sMCQ, c)]
    | none =>
      match scanFirst pMultipleChoiceCount low with
      | some c => [(sMCQ, c)]
      | none => []
  let shortReq := match scanFirst pShortCount low with
    | some c => [(sShortAnswer, c)]
    | none => []
  let longReq := match scanFirst pLongCount low with
    | some c => [(sLongAnswer, c)]
    | none => []
  mcqReq ++ shortReq ++ longReq

/-!
## `_strict_validate_and_correct`
-/

/-- Step 1 of the corrector, text part: if an MCQ question text contains
`A)` but no newline, split the inline options by replacing `, B)`,
`, C)`, `, D)` with newline-prefixed forms. -/
def fixMCQtext (t : Str) : Str :=
  if containsSub t sAParen && !containsSub t sNl then
    replaceAll (replaceAll (replaceAll t sCommaB sNlB) sCommaC sNlC) sCommaD sNlD
  else t

/-- Step 1 of the corrector on one question. -/
def fixMCQ (q : Question) : Question :=
  if q.question_type = sMCQ then
    { q with question_text := fixMCQtext q.question_text }
  else q

/-- The chain of `[Generated]`-prefixed clones appended by step 3: each
clone copies the current last question (i.e. the previous clone). -/
def cloneChain (q : Question) : Nat → List Question
  | 0 => []
  | k + 1 =>
    let c := { q with question_text := sGenerated ++ q.question_text }
    c :: cloneChain c k

/-- Step 3: trim to the required count, or pad by cloning the last
question (an empty candidate list stays empty, as in the source). -/
def enforceCount (qs : List Question) (required_count : Nat) : List Question :=
  if required_count < qs.length then qs.take required_count
  else if qs.length < required_count then
    match qs.getLast? with
    | none => []
    | some lastq => qs ++ cloneChain lastq (required_count - qs.length)
  else qs

/-- Step 4: overwrite `marks[i] = marks_distribution[i]` positionally;
slots beyond the plan (impossible after step 3 on a non-empty list) are
left untouched, as in the source's `if i < len(marks_distribution)`. -/
def setMarks : List Question → List Int → List Question
  | [], _ => []
  | qs, [] => qs
  | q :: t, m :: ms => { q with marks := m } :: setMarks t ms

/-- Step 5 on one slot: overwrite the question type when it differs from
the required one, appending a placeholder option block when coercing to
MCQ a question without `\nA)` in its text. -/
def coerceType (q : Question) (ty : Str) : Question :=
  if q.question_type ≠ ty then
    if ty = sMCQ && !containsSub q.question_text sNlA then
      { q with question_type := ty, question_text := q.question_text ++ sOptions }
    else { q with question_type := ty }
  else q

/-- The positional sequence of required types: each requirement `(t, c)`
contributes `c` copies of `t`. -/
def typeSequence : List (Str × Nat) → List Str
  | [] => []
  | (t, c) :: rest => List.replicate c t ++ typeSequence rest

/-- Step 5: walk the slots positionally against the required types
(the source's `idx` only advances while in bounds, so this is exactly a
positional zip that leaves surplus questions untouched). -/
def applyTypes : List Question → List Str → List Question
  | qs, [] => qs
  | [], _ :: _ => []
  | q :: t, ty :: tys => coerceType q ty :: applyTypes t tys

/-- `questions[-1]["marks"] += d`. -/
def addToLast : List Question → Int → List Question
  | [], _ => []
  | [q], d => [{ q with marks := q.marks + d }]
  | q :: t, d => q :: addToLast t d

/-- Step 6: if count or marks still mismatch, add the whole signed
difference to the last slot's marks (only when the marks differ and the
list is non-empty). -/
def residualStep (qs : List Question) (required_count : Nat) (total_marks : Int) : List Question :=
  if qs.length ≠ required_count ∨ sumMarks qs ≠ total_marks then
    if sumMarks qs ≠ total_marks ∧ qs ≠ [] then
      addToLast qs (total_marks - sumMarks qs)
    else qs
  else qs

/-- `_strict_validate_and_correct`. -/
def strict_validate_and_correct (questions : List Question) (marks_distribution : List Int)
    (total_marks : Int) (prompt : Str) : List Question :=
  let qs1 := questions.map fixMCQ
  let reqs := extract_question_type_requirements prompt
  let required_count := marks_distribution.length
  let qs3 := enforceCount qs1 required_count
  let qs4 := setMarks qs3 marks_distribution
  let qs5 := applyTypes qs4 (typeSequence reqs)
  residualStep qs5 required_count total_marks

/-!
## `_force_exact_match`
-/

/-- The minimal placeholder question synthesized when the survivor list
is empty (the source dict has no `unit` key; every read of `unit` in
the pipeline uses a `None`-like default). -/
def dummyQuestion : Question :=
  { question_text := "Generated question to meet requirements".data
    blooms_level := "Remember".data
    question_type := sShortAnswer
    marks := 1
    answer_key := "Answer provided".data
    unit := none }

/-- A forced-match clone: distinguishing prefix, first 50 characters of
the source text, trailing ellipsis. -/
def forceClone (q : Question) : Question :=
  { q with question_text := sAdditional ++ q.question_text.take 50 ++ sDots }

/-- Chain of forced-match clones, each cloning the previous one. -/
def forceCloneChain (q : Question) : Nat → List Question
  | 0 => []
  | k + 1 =>
    let c := forceClone q
    c :: forceCloneChain c k

/-- Step 1 of forced match: trim or clone to the required count; an
empty list first receives the placeholder and then clones of it. -/
def forceCount (qs : List Question) (required_count : Nat) : List Question :=
  if required_count < qs.length then qs.take required_count
  else if qs.length < required_count then
    match qs.getLast? with
    | some lastq => qs ++ forceCloneChain lastq (required_count - qs.length)
    | none => dummyQuestion :: forceCloneChain dummyQuestion (required_count - 1)
  else qs

/-- Step 2 of forced match, surplus deficit: `per_question` added to
every slot and one extra mark to the first `remainder` slots. -/
def addPer (per rem : Nat) : Nat → List Question → List Question
  | _, [] => []
  | i, q :: t =>
    { q with marks := q.marks + per + (if i < rem then 1 else 0) } :: addPer per rem (i + 1) t

/-- Step 2 of forced match, surplus marks: walk the slots once, each
slot above 1 mark gives up `min(marks - 1, diff)` marks. -/
def reduceMarks : Nat → List Question → List Question
  | _, [] => []
  | d, q :: t =>
    if 0 < d && 1 < q.marks then
      let red : Nat := min (q.marks - 1).toNat d
      { q with marks := q.marks - red } :: reduceMarks (d - red) t
    else q :: reduceMarks d t

/-- `_force_exact_match`.  `required_count = none` models the Python
`None` default and `some 0` is falsy, so both skip the count fix. -/
def force_exact_match (questions : List Question) (required_marks : Int)
    (required_count : Option Nat) : List Question :=
  let qs1 := match required_count with
    | some (n + 1) => forceCount questions (n + 1)
    | _ => questions
  let current := sumMarks qs1
  if current = required_marks then qs1
  else if current < required_marks then
    let d := (required_marks - current).toNat
    let per := if qs1.length = 0 then 0 else d / qs1.length
    let rem := if qs1.length = 0 then 0 else d % qs1.length
    addPer per rem 0 qs1
  else reduceMarks (current - required_marks).toNat qs1

/-!
## `_adjust_questions_to_marks` and the verifier decision
-/

/-- Stable insertion by ascending marks (equal marks keep their original
relative order, like Python's stable `sorted`). -/
def insertByMarks (q : Question) : List Question → List Question
  | [] => [q]
  | h :: t => if h.marks ≤ q.marks then h :: insertByMarks q t else q :: h :: t

def sortByMarks : List Question → List Question
  | [] => []
  | q :: t => insertByMarks q (sortByMarks t)

/-- Greedy pass over the marks-sorted list: keep a question whenever the
running total stays within the target. -/
def greedyTake (target : Int) : List Question → Int → List Question
  | [], _ => []
  | q :: t, tot =>
    if tot + q.marks ≤ target then q :: greedyTake target t (tot + q.marks)
    else greedyTake target t tot

/-- `+1` mark on each of the first `k` questions. -/
def incFirstQ : Nat → List Question → List Question
  | 0, l => l
  | _ + 1, [] => []
  | k + 1, q :: t => { q with marks := q.marks + 1 } :: incFirstQ k t

/-- `_adjust_questions_to_marks`. -/
def adjust_questions_to_marks (questions : List Question) (target_marks : Int) : List Question :=
  match questions with
  | [] => questions
  | _ :: _ =>
    let current := sumMarks questions
    if current = target_marks then questions
    else if target_marks < current then greedyTake target_marks (sortByMarks questions) 0
    else incFirstQ (min (target_marks - current).toNat questions.length) questions

/-- The verifier count regex `(\d+)\s*(?:questions?|mcqs?)`. -/
def pExpectedCount (s : Str) : Option Nat := do
  let (count, r) ← pDigits s
  let r := pSpaces0 r
  match pLit kQuestion r with
  | some _ => pure count
  | none =>
    match pLit kMcq r with
    | some _ => pure count
    | none => none

def extract_expected_count (prompt : Str) : Option Nat :=
  scanFirst pExpectedCount (toLowerStr prompt)

/-- Python truthiness of the optional expected count: `None` and `0` are
falsy. -/
def truthy : Option Nat → Bool
  | none => false
  | some 0 => false
  | some (_ + 1) => true

def expectedVal : Option Nat → Nat
  | none => 0
  | some n => n

/-- Outcome of the verifier's post-filter decision: route back to the
generation agent with the incremented shared retry counter, or set
`current_step = "assembly"` with the final verified list. -/
inductive VOutcome where
  | retry (new_retry_count : Nat) : VOutcome
  | assembly (out : List Question) : VOutcome
deriving DecidableEq

/-- The adjust pass of `verifier_agent`: run
`_adjust_questions_to_marks` exactly when the marks differ from the
required total or a truthy expected count disagrees with the survivor
count (Python truthiness of `expected_count and len(verified) !=
expected_count`). -/
def verifier_adjusted (verified : List Question) (required_marks : Int)
    (expected : Option Nat) : List Question :=
  if ¬(sumMarks verified = required_marks) ∨
      (truthy expected = true ∧ verified.length ≠ expectedVal expected) then
    adjust_questions_to_marks verified required_marks
  else verified

/-- The strict final check and routing of `verifier_agent`: retry on a
mismatch while the shared counter stays below 5, else Forced-Match and
assembly; on an exact match, assembly directly (`marks_ok` is exact
equality, `count_ok` is vacuous for a falsy expected count). -/
def verifier_route (verified1 : List Question) (required_marks : Int) (expected : Option Nat)
    (retry_count : Nat) : VOutcome :=
  if ¬(sumMarks verified1 = required_marks) ∨
      ¬(truthy expected = false ∨ verified1.length = expectedVal expected) then
    if retry_count + 1 < 5 then VOutcome.retry (retry_count + 1)
    else VOutcome.assembly (force_exact_match verified1 required_marks expected)
  else VOutcome.assembly verified1

/-- The tail of `verifier_agent` after the field/duplicate filter:
expected-count extraction, the adjust pass, the strict marks/count
check, and the retry-or-force routing (shared `retry_count`, cap 5). -/
def verifier_decide (verified : List Question) (required_marks : Int) (prompt : Str)
    (retry_count : Nat) : VOutcome :=
  verifier_route (verifier_adjusted verified required_marks (extract_expected_count prompt))
    required_marks (extract_expected_count prompt) retry_count

/-- The duplicate filter of `verifier_agent`: a candidate with all
required fields present (always true of a total record, see the
`Question` docstring) survives exactly when the duplicate oracle
rejects it. -/
def verifier_filter (dup : Str → Bool) (qs : List Question) : List Question :=
  qs.filter (fun q => !dup q.question_text)

/-!
## Retry bookkeeping of the generation and verification agents
-/

/-- The exception handler of `question_generation_agent`: increment the
shared `retry_count`; below 3 route back to generation, else to
`error`. -/
def gen_fail_step (retry_count : Nat) : Nat × Str :=
  (retry_count + 1, if retry_count + 1 < 3 then sQuestionGeneration else sError)

/-- The mismatch branch of `verifier_agent`: increment the same shared
`retry_count`; below 5 route back to generation, else force and move to
assembly. -/
def verify_mismatch_step (retry_count : Nat) : Nat × Str :=
  (retry_count + 1, if retry_count + 1 < 5 then sQuestionGeneration else sAssembly)

def iterGenFails : Nat → Nat → Nat
  | 0, r => r
  | g + 1, r => iterGenFails g (gen_fail_step r).1

def iterVerifyFails : Nat → Nat → Nat
  | 0, r => r
  | v + 1, r => iterVerifyFails v (verify_mismatch_step r).1

/-!
## `_create_fallback_questions` and the decode-failure branch
-/

/-- The slice of generation-agent state that the decode-failure branch
touches. -/
structure GenState where
  subject : Str
  total_marks : Nat
  generated_questions : List Question
  current_step : Str
  retry_count : Nat
deriving DecidableEq

/-- The five synthetic template questions (the zip of the marks, Bloom
level and type template lists, with the f-string texts expanded per
index), truncated to `int(total_marks / 10)` entries. -/
def create_fallback_questions (subject : Str) (total_marks : Nat) : List Question :=
  let base : List Question :=
    [ { question_text := "Question 1 for ".data ++ subject ++ " - Remember level question".data
        blooms_level := "Remember".data
        question_type := "Reasoning".data
        marks := 10
        answer_key := "Answer for question 1".data
        unit := none }
    , { question_text := "Question 2 for ".data ++ subject ++ " - Understand level question".data
        blooms_level := "Understand".data
        question_type := "Analytical".data
        marks := 10
        answer_key := "Answer for question 2".data
        unit := none }
    , { question_text := "Question 3 for ".data ++ subject ++ " - Apply level question".data
        blooms_level := "Apply".data
        question_type := "Calculation".data
        marks := 10
        answer_key := "Answer for question 3".data
        unit := none }
    , { question_text := "Question 4 for ".data ++ subject ++ " - Analyze level question".data
        blooms_level := "Analyze".data
        question_type := "Reasoning".data
        marks := 10
        answer_key := "Answer for question 4".data
        unit := none }
    , { question_text := "Question 5 for ".data ++ subject ++ " - Evaluate level question".data
        blooms_level := "Evaluate".data
        question_type := "Analytical".data
        marks := 10
        answer_key := "Answer for question 5".data
        unit := none } ]
  base.take (total_marks / 10)

/-- The `json.JSONDecodeError` handler of `question_generation_agent`:
substitute the fallback list and continue to verification; the retry
counter is not touched by this branch. -/
def on_decode_failure (s : GenState) : GenState :=
  { s with
    generated_questions := create_fallback_questions s.subject s.total_marks
    current_step := sVerification }

/-!
## The embedding service

Vectors are embedded as rational coordinate lists (`faiss.IndexFlatL2`
returns squared L2 distances; the external sentence-transformer encoder
is an arbitrary function parameter).
-/

structure EmbState where
  index : List (List ℚ)
  question_ids : List Str
deriving DecidableEq

/-- Squared L2 distance, as returned by `IndexFlatL2.search`. -/
def l2sq (a b : List ℚ) : ℚ := (List.zipWith (fun x y => (x - y) * (x - y)) a b).sum

/-- Stable insertion by ascending distance. -/
def insertByDist (x : ℚ × Nat) : List (ℚ × Nat) → List (ℚ × Nat)
  | [] => [x]
  | h :: t => if h.1 ≤ x.1 then h :: insertByDist x t else x :: h :: t

def sortByDist : List (ℚ × Nat) → List (ℚ × Nat)
  | [] => []
  | x :: t => insertByDist x (sortByDist t)

/-- `index.search(query, k)`: the `k` nearest stored vectors as
`(distance, index)` pairs in ascending distance order. -/
def searchKNN (vecs : List (List ℚ)) (query : List ℚ) (k : Nat) : List (ℚ × Nat) :=
  (sortByDist ((vecs.enum).map (fun vi => (l2sq query vi.2, vi.1)))).take k

/-- The similarity list built from the raw search results: valid indices
only, scored `1 / (1 + distance)`. -/
def similaritiesOf (ids : List Str) (res : List (ℚ × Nat)) : List (Str × ℚ) :=
  res.filterMap (fun di => (ids.get? di.2).map (fun id => (id, 1 / (1 + di.1))))

/-- `check_similarity`: empty index short-circuits to `(False, [])`;
otherwise the `min(k, ntotal)` nearest neighbours are scored and the
flag is whether any similarity reaches the threshold. -/
def check_similarity (st : EmbState) (encode : Str → List ℚ) (question_text : Str)
    (threshold : ℚ) (k : Nat) : Bool × List (Str × ℚ) :=
  if st.index.length = 0 then (false, [])
  else
    let res := searchKNN st.index (encode question_text) (min k st.index.length)
    let sims := similaritiesOf st.question_ids res
    (sims.any (fun p => threshold ≤ p.2), sims)

/-- `_check_duplicate`: threshold 0.90, k = 5 (the exception fallback of
the source is not modelled; the embedded computation is total). -/
def check_duplicate (st : EmbState) (encode : Str → List ℚ) (question_text : Str) : Bool :=
  (check_similarity st encode question_text (9 / 10) 5).1

/-- `_rebuild_index`, verbatim from the source: `self.index =
faiss.IndexFlatL2(self.dimension)` and nothing else — the placeholder
comment in the source says a production version would re-add the
retained vectors, but the code recreates an empty index. -/
def rebuild_index (st : EmbState) : EmbState := { st with index := [] }

/-- `list.pop(list.index(qid))`: drop the first occurrence. -/
def eraseFirstId : List Str → Str → List Str
  | [], _ => []
  | x :: t, y => if x = y then t else x :: eraseFirstId t y

/-- `remove_question`. -/
def remove_question (st : EmbState) (question_id : Str) : EmbState :=
  if question_id ∈ st.question_ids then
    rebuild_index { st with question_ids := eraseFirstId st.question_ids question_id }
  else st

/-- `delete_embeddings_by_resource`: filter out ids with the
`resource_id:` prefix, rebuild only when something was deleted; returns
the deleted count. -/
def delete_embeddings_by_resource (st : EmbState) (resource_id : Str) : EmbState × Nat :=
  let keep := st.question_ids.filter (fun qid => !hasPfx (resource_id ++ [':']) qid)
  let deleted := st.question_ids.length - keep.length
  if 0 < deleted then (rebuild_index { st with question_ids := keep }, deleted)
  else ({ st with question_ids := keep }, deleted)

/-- `add_question`. -/
def add_question (st : EmbState) (encode : Str → List ℚ) (question_text : Str)
    (question_id : Str) : EmbState :=
  { index := st.index ++ [encode question_text]
    question_ids := st.question_ids ++ [question_id] }

/-!
## Side conditions and concrete inputs referenced by the theorems
-/

/-- The reconciliation of a structured plan against the required total
succeeds exactly when the one-unit-per-trailing-slot pass can absorb the
whole difference: the absolute difference is at most the slot count and,
when marks must be removed, every affected trailing slot is above the
1-mark floor. -/
def reconcileOK (plan : List Nat) (total : Nat) : Prop :=
  (plan.sum < total → total - plan.sum ≤ plan.length) ∧
  (total < plan.sum →
    plan.sum - total ≤ plan.length ∧
      ∀ x ∈ plan.reverse.take (plan.sum - total), 2 ≤ x)

instance (plan : List Nat) (total : Nat) : Decidable (reconcileOK plan total) := by
  unfold reconcileOK
  infer_instance

/-- How many of the `len` indices `i, i+1, ...` are below `rem`
(bookkeeping for the forced-match remainder distribution). -/
def cntBelow : Nat → Nat → Nat → Nat
  | _, _, 0 => 0
  | i, rem, len + 1 => (if i < rem then 1 else 0) + cntBelow (i + 1) rem len

def promptScenario : Str := "10 mcqs of 1 marks each, 5 short questions of 2 marks each".data

def promptOneMcq : Str := "1 mcq of 1 marks each".data

def promptTwoMcqs : Str := "2 mcqs of 5 marks each".data

def promptEightQuestions : Str := "8 questions".data

def promptTwoQuestions : Str := "2 questions".data

def idPrev : Str := "prev".data

/-- A sentence-transformer stand-in whose embedding of any text sits at
squared L2 distance 1/19 from the stored vector, so that the converted
similarity is exactly 0.95. -/
def encode95 (_ : Str) : List ℚ := [4 / 19, 1 / 19, 1 / 19, 1 / 19]

/-- A stand-in yielding squared distance 1/4, i.e. similarity 0.80. -/
def encode80 (_ : Str) : List ℚ := [1 / 2, 0, 0, 0]

/-- A single-entry similarity index holding the zero vector under the
identifier `prev`. -/
def stOne : EmbState := { index := [[0, 0, 0, 0]], question_ids := [idPrev] }

/-!
## String lemmas
-/

theorem hasPfx_mem {p s : Str} (h : hasPfx p s = true) : ∀ c ∈ p, c ∈ s := by
  induction p generalizing s with
  | nil => intro c hc; cases hc
  | cons a p ih =>
    cases s with
    | nil => cases h
    | cons b s =>
      simp only [hasPfx, Bool.and_eq_true, beq_iff_eq] at h
      intro c hc
      rcases List.mem_cons.mp hc with hca | hcp
      · exact List.mem_cons.mpr (Or.inl (hca.trans h.1))
      · exact List.mem_cons.mpr (Or.inr (ih h.2 c hcp))

theorem containsSub_mem {s p : Str} (h : containsSub s p = true) : ∀ c ∈ p, c ∈ s := by
  induction s with
  | nil =>
    cases p with
    | nil => intro c hc; cases hc
    | cons d ps => cases h
  | cons b t ih =>
    simp only [containsSub, Bool.or_eq_true] at h
    rcases h with h | h
    · exact hasPfx_mem h
    · intro c hc
      exact List.mem_cons.mpr (Or.inr (ih h c hc))

theorem containsSub_singleton {s : Str} {c : Char} : containsSub s [c] = true ↔ c ∈ s := by
  induction s with
  | nil => simp [containsSub, hasPfx]
  | cons b t ih =>
    simp only [containsSub, hasPfx, Bool.and_eq_true, Bool.or_eq_true, beq_iff_eq]
    simp only [List.mem_cons]
    constructor
    · rintro (⟨h, _⟩ | h)
      · exact Or.inl h
      · exact Or.inr (ih.mp h)
    · rintro (h | h)
      · exact Or.inl ⟨h, trivial⟩
      · exact Or.inr (ih.mpr h)

theorem replaceAll_self_or_mem (c : Char) (p r : Str) (hc : c ∈ r) (s : Str) :
    replaceAll s p r = s ∨ c ∈ replaceAll s p r := by
  have main : ∀ n (s : Str), s.length ≤ n → (replaceAll s p r = s ∨ c ∈ replaceAll s p r) := by
    intro n
    induction n with
    | zero =>
      intro s hs
      have hnil : s = [] := by
        cases s with
        | nil => rfl
        | cons a t => simp at hs
      subst hnil
      cases p with
      | nil => exact Or.inl (by simp [replaceAll])
      | cons d ps => exact Or.inl (by simp [replaceAll])
    | succ n ih =>
      intro s hs
      cases p with
      | nil => exact Or.inl (by cases s <;> simp [replaceAll])
      | cons d ps =>
        cases s with
        | nil => exact Or.inl (by simp [replaceAll])
        | cons a t =>
          by_cases hpfx : hasPfx (d :: ps) (a :: t) = true
          · right
            simp only [replaceAll, hpfx, if_true]
            exact List.mem_append_left _ hc
          · have step : replaceAll (a :: t) (d :: ps) r = a :: replaceAll t (d :: ps) r := by
              simp only [replaceAll, hpfx, if_false]
              simp [hpfx]
            rcases ih t (by simp only [List.length_cons] at hs; omega) with h | h
            · left; rw [step, h]
            · right; rw [step]; exact List.mem_cons.mpr (Or.inr h)
  exact main s.length s le_rfl

theorem replaceAll_cons_ne {a d : Char} {s ps r : Str} (h : a ≠ d) :
    replaceAll (a :: s) (d :: ps) r = a :: replaceAll s (d :: ps) r := by
  have hpfx : hasPfx (d :: ps) (a :: s) = false := by
    simp [hasPfx, h.symm]
  simp only [replaceAll, hpfx]
  simp

theorem replaceAll_append_of_ne {pre s ps r : Str} {d : Char} (h : ∀ x ∈ pre, x ≠ d) :
    replaceAll (pre ++ s) (d :: ps) r = pre ++ replaceAll s (d :: ps) r := by
  induction pre with
  | nil => rfl
  | cons a pre ih =>
    have ha : a ≠ d := h a (List.mem_cons_self a pre)
    rw [List.cons_append, replaceAll_cons_ne ha, ih (fun x hx => h x (List.mem_cons.mpr (Or.inr hx)))]
    rfl

theorem containsSub_cons_ne {a d : Char} {s ps : Str} (h : a ≠ d) :
    containsSub (a :: s) (d :: ps) = containsSub s (d :: ps) := by
  have hpfx : hasPfx (d :: ps) (a :: s) = false := by
    simp [hasPfx, h.symm]
  simp [containsSub, hpfx]

theorem containsSub_append_of_ne {pre s ps : Str} {d : Char} (h : ∀ x ∈ pre, x ≠ d) :
    containsSub (pre ++ s) (d :: ps) = containsSub s (d :: ps) := by
  induction pre with
  | nil => rfl
  | cons a pre ih =>
    have ha : a ≠ d := h a (List.mem_cons_self a pre)
    rw [List.cons_append, containsSub_cons_ne ha,
      ih (fun x hx => h x (List.mem_cons.mpr (Or.inr hx)))]

/-!
## Idempotence of the MCQ-format fix
-/

theorem fixMCQtext_eq_self {t : Str}
    (h : ¬(containsSub t sAParen && !containsSub t sNl) = true) : fixMCQtext t = t := by
  unfold fixMCQtext
  rw [if_neg h]

theorem fixMCQtext_eq_replace {t : Str}
    (h : (containsSub t sAParen && !containsSub t sNl) = true) :
    fixMCQtext t =
      replaceAll (replaceAll (replaceAll t sCommaB sNlB) sCommaC sNlC) sCommaD sNlD := by
  unfold fixMCQtext
  rw [if_pos h]

theorem fixMCQtext_self_or_nl (t : Str) : fixMCQtext t = t ∨ nlChar ∈ fixMCQtext t := by
  by_cases hc : (containsSub t sAParen && !containsSub t sNl) = true
  · rw [fixMCQtext_eq_replace hc]
    have h3 := replaceAll_self_or_mem nlChar sCommaD sNlD (by decide)
      (replaceAll (replaceAll t sCommaB sNlB) sCommaC sNlC)
    rcases h3 with h3 | h3
    · rw [h3]
      have h2 := replaceAll_self_or_mem nlChar sCommaC sNlC (by decide)
        (replaceAll t sCommaB sNlB)
      rcases h2 with h2 | h2
      · rw [h2]
        exact replaceAll_self_or_mem nlChar sCommaB sNlB (by decide) t
      · exact Or.inr h2
    · exact Or.inr h3
  · exact Or.inl (fixMCQtext_eq_self hc)

theorem fixMCQtext_of_nl {t : Str} (h : nlChar ∈ t) : fixMCQtext t = t := by
  apply fixMCQtext_eq_self
  have : containsSub t sNl = true := containsSub_singleton.mpr h
  simp [this]

theorem fixMCQtext_idem (t : Str) : fixMCQtext (fixMCQtext t) = fixMCQtext t := by
  rcases fixMCQtext_self_or_nl t with h | h
  · rw [h]
    exact h
  · exact fixMCQtext_of_nl h

theorem fixMCQ_idem (q : Question) : fixMCQ (fixMCQ q) = fixMCQ q := by
  obtain ⟨t, b, ty, mk, a, u⟩ := q
  by_cases hty : ty = sMCQ
  · simp [fixMCQ, hty, fixMCQtext_idem]
  · simp [fixMCQ, hty]

theorem fixMCQ_text_of_fix {t b ty a : Str} {mk : Int} {u : Option Str}
    (hty : ty = sMCQ)
    (h : fixMCQ ⟨t, b, ty, mk, a, u⟩ = ⟨t, b, ty, mk, a, u⟩) : fixMCQtext t = t := by
  simp only [fixMCQ, hty, if_pos, Question.mk.injEq] at h
  simpa using h

theorem fixMCQ_marks_update {q : Question} (h : fixMCQ q = q) (m : Int) :
    fixMCQ { q with marks := m } = { q with marks := m } := by
  obtain ⟨t, b, ty, mk, a, u⟩ := q
  by_cases hty : ty = sMCQ
  · have htext := fixMCQ_text_of_fix hty h
    simp [fixMCQ, hty, htext]
  · simp [fixMCQ, hty]

theorem fixMCQ_clone {q : Question} (h : fixMCQ q = q) :
    fixMCQ { q with question_text := sGenerated ++ q.question_text } =
      { q with question_text := sGenerated ++ q.question_text } := by
  obtain ⟨t, b, ty, mk, a, u⟩ := q
  by_cases hty : ty = sMCQ
  · have htext := fixMCQ_text_of_fix hty h
    simp only [fixMCQ, hty, if_pos, Question.mk.injEq]
    refine ⟨?_, trivial, trivial, trivial, trivial, trivial⟩
    by_cases hcond :
        (containsSub (sGenerated ++ t) sAParen && !containsSub (sGenerated ++ t) sNl) = true
    · have hA : containsSub (sGenerated ++ t) sAParen = containsSub t sAParen := by
        simp only [sAParen]
        exact containsSub_append_of_ne (by decide)
      have hNl : containsSub (sGenerated ++ t) sNl = containsSub t sNl := by
        simp only [sNl, nlChar]
        exact containsSub_append_of_ne (by decide)
      have hcondT : (containsSub t sAParen && !containsSub t sNl) = true := by
        rw [hA, hNl] at hcond
        exact hcond
      rw [fixMCQtext_eq_replace hcond]
      have hrepT := fixMCQtext_eq_replace hcondT
      rw [htext] at hrepT
      simp only [sCommaB, sCommaC, sCommaD]
      rw [replaceAll_append_of_ne (by decide), replaceAll_append_of_ne (by decide),
        replaceAll_append_of_ne (by decide)]
      simp only [sCommaB, sCommaC, sCommaD] at hrepT
      rw [← hrepT]
    · exact fixMCQtext_eq_self hcond
  · simp [fixMCQ, hty]

theorem coerceType_type (q : Question) (ty : Str) : (coerceType q ty).question_type = ty := by
  unfold coerceType
  by_cases h : q.question_type ≠ ty
  · rw [if_pos h]
    split <;> rfl
  · rw [if_neg h]
    exact not_not.mp h

theorem fixMCQ_coerce {q : Question} (h : fixMCQ q = q) (ty : Str) :
    fixMCQ (coerceType q ty) = coerceType q ty := by
  obtain ⟨t, b, qty, mk, a, u⟩ := q
  by_cases hne : Question.question_type ⟨t, b, qty, mk, a, u⟩ ≠ ty
  · by_cases hmcq : ty = sMCQ
    · subst hmcq
      by_cases hA : containsSub t sNlA = true
      · have hq : coerceType ⟨t, b, qty, mk, a, u⟩ sMCQ = ⟨t, b, sMCQ, mk, a, u⟩ := by
          unfold coerceType
          rw [if_pos hne]
          simp [hA]
        rw [hq]
        have hnl : nlChar ∈ t := containsSub_mem hA nlChar (by decide)
        simp [fixMCQ, fixMCQtext_of_nl hnl]
      · have hq : coerceType ⟨t, b, qty, mk, a, u⟩ sMCQ =
            ⟨t ++ sOptions, b, sMCQ, mk, a, u⟩ := by
          unfold coerceType
          rw [if_pos hne]
          simp [hA]
        rw [hq]
        have hnl : nlChar ∈ t ++ sOptions := List.mem_append_right _ (by decide)
        simp [fixMCQ, fixMCQtext_of_nl hnl]
    · have hq : coerceType ⟨t, b, qty, mk, a, u⟩ ty = ⟨t, b, ty, mk, a, u⟩ := by
        unfold coerceType
        rw [if_pos hne]
        simp [hmcq]
      rw [hq]
      simp [fixMCQ, hmcq]
  · unfold coerceType
    rw [if_neg hne]
    exact h

/-!
## List-level lemmas for the corrector
-/

theorem cloneChain_fix {q : Question} (h : fixMCQ q = q) (k : Nat) :
    ∀ x ∈ cloneChain q k, fixMCQ x = x := by
  induction k generalizing q with
  | zero => intro x hx; cases hx
  | succ k ih =>
    intro x hx
    simp only [cloneChain] at hx
    rcases List.mem_cons.mp hx with hx | hx
    · rw [hx]
      exact fixMCQ_clone h
    · exact ih (fixMCQ_clone h) x hx

theorem getLast?_mem {α : Type} : ∀ {l : List α} {a : α}, l.getLast? = some a → a ∈ l := by
  intro l
  induction l with
  | nil => intro a h; cases h
  | cons x t ih =>
    intro a h
    cases t with
    | nil =>
      simp only [List.getLast?_singleton, Option.some.injEq] at h
      simp [h]
    | cons y s =>
      rw [List.getLast?_cons_cons] at h
      exact List.mem_cons.mpr (Or.inr (ih h))

theorem enforceCount_fix {qs : List Question} (h : ∀ q ∈ qs, fixMCQ q = q) (n : Nat) :
    ∀ q ∈ enforceCount qs n, fixMCQ q = q := by
  unfold enforceCount
  split
  · intro q hq
    exact h q (List.mem_of_mem_take hq)
  · split
    · split
      · intro q hq; cases hq
      · next lastq hlast =>
        intro q hq
        rcases List.mem_append.mp hq with hq | hq
        · exact h q hq
        · exact cloneChain_fix (h lastq (getLast?_mem hlast)) _ q hq
    · exact h

theorem setMarks_fix {qs : List Question} {plan : List Int} (h : ∀ q ∈ qs, fixMCQ q = q) :
    ∀ q ∈ setMarks qs plan, fixMCQ q = q := by
  induction qs generalizing plan with
  | nil => intro q hq; simp [setMarks] at hq
  | cons x t ih =>
    cases plan with
    | nil => exact h
    | cons m ms =>
      intro q hq
      rcases List.mem_cons.mp hq with hq | hq
      · rw [hq]
        exact fixMCQ_marks_update (h x (List.mem_cons_self x t)) m
      · exact ih (fun q hq => h q (List.mem_cons.mpr (Or.inr hq))) q hq

theorem applyTypes_fix {qs : List Question} {tys : List Str} (h : ∀ q ∈ qs, fixMCQ q = q) :
    ∀ q ∈ applyTypes qs tys, fixMCQ q = q := by
  induction qs generalizing tys with
  | nil =>
    cases tys with
    | nil => exact h
    | cons ty ts => intro q hq; simp [applyTypes] at hq
  | cons x t ih =>
    cases tys with
    | nil => exact h
    | cons ty ts =>
      intro q hq
      rcases List.mem_cons.mp hq with hq | hq
      · rw [hq]
        exact fixMCQ_coerce (h x (List.mem_cons_self x t)) ty
      · exact ih (fun q hq => h q (List.mem_cons.mpr (Or.inr hq))) q hq

theorem addToLast_fix {qs : List Question} {d : Int} (h : ∀ q ∈ qs, fixMCQ q = q) :
    ∀ q ∈ addToLast qs d, fixMCQ q = q := by
  induction qs with
  | nil => intro q hq; cases hq
  | cons x t ih =>
    cases t with
    | nil =>
      intro q hq
      rcases List.mem_cons.mp hq with hq | hq
      · rw [hq]
        exact fixMCQ_marks_update (h x (List.mem_cons_self x [])) _
      · cases hq
    | cons y s =>
      intro q hq
      rcases List.mem_cons.mp hq with hq | hq
      · rw [hq]
        exact h x (List.mem_cons_self x (y :: s))
      · exact ih (fun q hq => h q (List.mem_cons.mpr (Or.inr hq))) q hq

theorem residualStep_fix {qs : List Question} {n : Nat} {total : Int}
    (h : ∀ q ∈ qs, fixMCQ q = q) : ∀ q ∈ residualStep qs n total, fixMCQ q = q := by
  unfold residualStep
  split
  · split
    · exact addToLast_fix h
    · exact h
  · exact h

theorem strict_fix (qs : List Question) (plan : List Int) (total : Int) (prompt : Str) :
    ∀ q ∈ strict_validate_and_correct qs plan total prompt, fixMCQ q = q := by
  unfold strict_validate_and_correct
  apply residualStep_fix
  apply applyTypes_fix
  apply setMarks_fix
  apply enforceCount_fix
  intro q hq
  rcases List.mem_map.mp hq with ⟨x, _, hx⟩
  rw [← hx]
  exact fixMCQ_idem x

theorem map_fix_of_all {qs : List Question} (h : ∀ q ∈ qs, fixMCQ q = q) :
    qs.map fixMCQ = qs := by
  induction qs with
  | nil => rfl
  | cons x t ih =>
    simp only [List.map_cons, h x (List.mem_cons_self x t)]
    rw [ih (fun q hq => h q (List.mem_cons.mpr (Or.inr hq)))]

theorem coerceType_of_eq {q : Question} {ty : Str} (h : q.question_type = ty) :
    coerceType q ty = q := by
  unfold coerceType
  rw [if_neg (not_not_intro h)]

theorem coerceType_coerceType (q : Question) (ty : Str) :
    coerceType (coerceType q ty) ty = coerceType q ty :=
  coerceType_of_eq (coerceType_type q ty)

theorem coerceType_marks_comm (q : Question) (ty : Str) (m : Int) :
    coerceType { q with marks := m } ty = { coerceType q ty with marks := m } := by
  obtain ⟨t, b, qty, mk, a, u⟩ := q
  by_cases h : qty ≠ ty
  · unfold coerceType
    rw [if_pos h, if_pos h]
    split <;> rfl
  · unfold coerceType
    rw [if_neg h, if_neg h]

theorem setMarks_applyTypes (l : List Question) (tys : List Str) (p : List Int) :
    setMarks (applyTypes l tys) p = applyTypes (setMarks l p) tys := by
  induction l generalizing tys p with
  | nil => cases tys <;> cases p <;> simp [applyTypes, setMarks]
  | cons q t ih =>
    cases tys with
    | nil =>
      cases p <;> simp [applyTypes, setMarks]
    | cons ty ts =>
      cases p with
      | nil => simp [applyTypes, setMarks]
      | cons m ms =>
        simp only [applyTypes, setMarks]
        rw [ih ts ms]
        congr 1
        exact (coerceType_marks_comm q ty m).symm

theorem setMarks_nil (p : List Int) : setMarks [] p = [] := by
  cases p <;> rfl

theorem setMarks_setMarks (l : List Question) (p : List Int) :
    setMarks (setMarks l p) p = setMarks l p := by
  induction l generalizing p with
  | nil => cases p <;> rfl
  | cons q t ih =>
    cases p with
    | nil => rfl
    | cons m ms =>
      simp only [setMarks]
      rw [ih ms]

theorem setMarks_addToLast (l : List Question) (p : List Int) (d : Int)
    (h : l.length = p.length) : setMarks (addToLast l d) p = setMarks l p := by
  induction l generalizing p with
  | nil => cases p <;> rfl
  | cons q t ih =>
    cases t with
    | nil =>
      cases p with
      | nil => simp at h
      | cons m ms => rfl
    | cons y s =>
      cases p with
      | nil => simp at h
      | cons m ms =>
        simp only [addToLast, setMarks]
        rw [ih ms (by simp only [List.length_cons] at h ⊢; omega)]

theorem setMarks_residualStep (l : List Question) (n : Nat) (total : Int) (p : List Int)
    (h : l.length = p.length) : setMarks (residualStep l n total) p = setMarks l p := by
  unfold residualStep
  split
  · split
    · exact setMarks_addToLast l p _ h
    · rfl
  · rfl

theorem applyTypes_nil (tys : List Str) : applyTypes [] tys = [] := by
  cases tys <;> rfl

theorem applyTypes_applyTypes (l : List Question) (tys : List Str) :
    applyTypes (applyTypes l tys) tys = applyTypes l tys := by
  induction l generalizing tys with
  | nil => cases tys <;> rfl
  | cons q t ih =>
    cases tys with
    | nil => rfl
    | cons ty ts =>
      simp only [applyTypes]
      rw [ih ts, coerceType_coerceType]

theorem cloneChain_length (q : Question) (k : Nat) : (cloneChain q k).length = k := by
  induction k generalizing q with
  | zero => rfl
  | succ k ih => simp [cloneChain, ih]

theorem getLast?_some_of_ne {α : Type} : ∀ {l : List α}, l ≠ [] → ∃ a, l.getLast? = some a := by
  intro l h
  induction l with
  | nil => exact absurd rfl h
  | cons x t ih =>
    cases t with
    | nil => exact ⟨x, rfl⟩
    | cons y s =>
      rcases ih (List.cons_ne_nil y s) with ⟨a, ha⟩
      exact ⟨a, by rw [List.getLast?_cons_cons]; exact ha⟩

theorem enforceCount_length {qs : List Question} (h : qs ≠ []) (n : Nat) :
    (enforceCount qs n).length = n := by
  unfold enforceCount
  split
  · next hlt => simp [List.length_take]; omega
  · split
    · next hgt =>
      rcases getLast?_some_of_ne h with ⟨a, ha⟩
      rw [ha]
      simp [cloneChain_length]
      omega
    · next h1 h2 => omega

theorem enforceCount_of_length {qs : List Question} {n : Nat} (h : qs.length = n) :
    enforceCount qs n = qs := by
  unfold enforceCount
  rw [if_neg (by omega), if_neg (by omega)]

theorem setMarks_length (l : List Question) (p : List Int) :
    (setMarks l p).length = l.length := by
  induction l generalizing p with
  | nil => cases p <;> rfl
  | cons q t ih =>
    cases p with
    | nil => rfl
    | cons m ms => simp [setMarks, ih ms]

theorem applyTypes_length (l : List Question) (tys : List Str) :
    (applyTypes l tys).length = l.length := by
  induction l generalizing tys with
  | nil => cases tys <;> rfl
  | cons q t ih =>
    cases tys with
    | nil => rfl
    | cons ty ts => simp [applyTypes, ih ts]

theorem addToLast_length (l : List Question) (d : Int) :
    (addToLast l d).length = l.length := by
  induction l with
  | nil => rfl
  | cons q t ih =>
    cases t with
    | nil => rfl
    | cons y s => simp [addToLast] at ih ⊢; omega

theorem residualStep_length (l : List Question) (n : Nat) (total : Int) :
    (residualStep l n total).length = l.length := by
  unfold residualStep
  split
  · split
    · exact addToLast_length l _
    · rfl
  · rfl

theorem strict_as_residual (qs : List Question) (plan : List Int) (total : Int) (prompt : Str) :
    strict_validate_and_correct qs plan total prompt =
      residualStep
        (applyTypes (setMarks (enforceCount (qs.map fixMCQ) plan.length) plan)
          (typeSequence (extract_question_type_requirements prompt)))
        plan.length total := rfl

theorem strict_nil (plan : List Int) (total : Int) (prompt : Str) :
    strict_validate_and_correct [] plan total prompt = [] := by
  rw [strict_as_residual]
  simp only [List.map_nil]
  have h1 : enforceCount ([] : List Question) plan.length = [] := by
    unfold enforceCount
    simp only [List.length_nil]
    rw [if_neg (Nat.not_lt_zero _)]
    split
    · rfl
    · rfl
  rw [h1, setMarks_nil, applyTypes_nil]
  unfold residualStep
  split
  · split
    · next hcond => exact absurd rfl hcond.2
    · rfl
  · rfl

theorem strict_length {qs : List Question} (h : qs ≠ []) (plan : List Int) (total : Int)
    (prompt : Str) :
    (strict_validate_and_correct qs plan total prompt).length = plan.length := by
  rw [strict_as_residual, residualStep_length, applyTypes_length, setMarks_length,
    enforceCount_length]
  intro hm
  exact h (List.map_eq_nil_iff.mp hm)

/-- C3.  The Constraint Corrector is idempotent: applying
`_strict_validate_and_correct` twice in sequence, with the same mark
plan, total and prompt, yields exactly the same list as applying it
once. -/
theorem strict_validate_and_correct_idempotent (qs : List Question) (plan : List Int)
    (total : Int) (prompt : Str) :
    strict_validate_and_correct (strict_validate_and_correct qs plan total prompt)
        plan total prompt =
      strict_validate_and_correct qs plan total prompt := by
  by_cases hqs : qs = []
  · subst hqs
    rw [strict_nil, strict_nil]
  · have hmap : qs.map fixMCQ ≠ [] := fun hm => hqs (List.map_eq_nil_iff.mp hm)
    have hfix : (strict_validate_and_correct qs plan total prompt).map fixMCQ =
        strict_validate_and_correct qs plan total prompt :=
      map_fix_of_all (strict_fix qs plan total prompt)
    have hlen : (strict_validate_and_correct qs plan total prompt).length = plan.length :=
      strict_length hqs plan total prompt
    have hlen5 :
        (applyTypes (setMarks (enforceCount (qs.map fixMCQ) plan.length) plan)
          (typeSequence (extract_question_type_requirements prompt))).length = plan.length := by
      rw [applyTypes_length, setMarks_length, enforceCount_length hmap]
    have hsm : setMarks (strict_validate_and_correct qs plan total prompt) plan =
        applyTypes (setMarks (enforceCount (qs.map fixMCQ) plan.length) plan)
          (typeSequence (extract_question_type_requirements prompt)) := by
      rw [strict_as_residual qs plan total prompt]
      rw [setMarks_residualStep _ _ _ _ (by rw [hlen5])]
      rw [setMarks_applyTypes, setMarks_setMarks]
    rw [strict_as_residual (strict_validate_and_correct qs plan total prompt) plan total prompt]
    rw [hfix, enforceCount_of_length hlen, hsm, applyTypes_applyTypes]
    rw [← strict_as_residual qs plan total prompt]

/-!
## Planner lemmas
-/

theorem incFirstN_length (k : Nat) (l : List Nat) : (incFirstN k l).length = l.length := by
  induction l generalizing k with
  | nil => cases k <;> rfl
  | cons x t ih =>
    cases k with
    | zero => rfl
    | succ k => simp [incFirstN, ih k]

theorem decFirstN_length (k : Nat) (l : List Nat) : (decFirstN k l).length = l.length := by
  induction l generalizing k with
  | nil => cases k <;> rfl
  | cons x t ih =>
    cases k with
    | zero => rfl
    | succ k => simp [decFirstN, ih k]

theorem incFirstN_sum (k : Nat) (l : List Nat) :
    (incFirstN k l).sum = l.sum + min k l.length := by
  induction l generalizing k with
  | nil => cases k <;> simp [incFirstN]
  | cons x t ih =>
    cases k with
    | zero => simp [incFirstN]
    | succ k =>
      simp only [incFirstN, List.sum_cons, ih k, List.length_cons]
      omega

theorem decFirstN_sum (k : Nat) (l : List Nat) (hk : k ≤ l.length)
    (h2 : ∀ x ∈ l.take k, 2 ≤ x) : (decFirstN k l).sum + k = l.sum := by
  induction l generalizing k with
  | nil =>
    cases k with
    | zero => rfl
    | succ k => simp at hk
  | cons x t ih =>
    cases k with
    | zero => simp [decFirstN]
    | succ k =>
      have hx : 2 ≤ x := h2 x (by simp [List.take])
      have hrec := ih k (by simp only [List.length_cons] at hk; omega)
        (fun y hy => h2 y (by simp [List.take]; exact Or.inr hy))
      simp only [decFirstN, List.sum_cons, if_pos (by omega : 1 < x)]
      omega

theorem reconcile_length (plan : List Nat) (total : Nat) :
    (reconcile plan total).length = plan.length := by
  unfold reconcile
  split
  · rfl
  · split
    · rw [List.length_reverse, incFirstN_length, List.length_reverse]
    · rw [List.length_reverse, decFirstN_length, List.length_reverse]

theorem reconcile_sum (plan : List Nat) (total : Nat) (h : reconcileOK plan total) :
    (reconcile plan total).sum = total := by
  unfold reconcile
  split
  · assumption
  · split
    · next hne hlt =>
      have hle : total - plan.sum ≤ plan.length := h.1 hlt
      rw [List.sum_reverse, incFirstN_sum, List.sum_reverse, List.length_reverse]
      omega
    · next hne hnlt =>
      have hgt : total < plan.sum := by omega
      have hle : plan.sum - total ≤ plan.length := (h.2 hgt).1
      have h2 := (h.2 hgt).2
      rw [List.sum_reverse]
      have := decFirstN_sum (plan.sum - total) plan.reverse
        (by rw [List.length_reverse]; exact hle) h2
      rw [List.sum_reverse] at this
      omega

theorem evenSplit_length {n : Nat} (hn : 1 ≤ n) (total : Nat) :
    (evenSplit n total).length = n := by
  unfold evenSplit
  have : total % n < n := Nat.mod_lt _ hn
  simp [List.length_replicate]
  omega

theorem evenSplit_sum {n : Nat} (hn : 1 ≤ n) (total : Nat) :
    (evenSplit n total).sum = total := by
  unfold evenSplit
  rw [List.sum_append, List.sum_replicate, List.sum_replicate, smul_eq_mul, smul_eq_mul]
  have hmod : n * (total / n) + total % n = total := Nat.div_add_mod total n
  have hr : total % n ≤ n := le_of_lt (Nat.mod_lt _ hn)
  rw [Nat.mul_add, Nat.mul_one, Nat.sub_mul]
  have hle : total % n * (total / n) ≤ n * (total / n) :=
    Nat.mul_le_mul_right _ hr
  generalize hA : total % n * (total / n) = A at *
  generalize hB : n * (total / n) = B at *
  omega

theorem defaultNumQuestions_pos (low : Str) (total : Nat) :
    1 ≤ defaultNumQuestions low total := by
  unfold defaultNumQuestions
  split
  · exact le_trans (by norm_num) (le_max_left 10 (total / 2))
  · split
    · omega
    · split <;> omega

theorem expandGroups_sum_pos_length {gs : List (Nat × Nat)} :
    (expandGroups gs).length = (gs.map (fun g => g.1)).sum := by
  induction gs with
  | nil => rfl
  | cons g rest ih =>
    obtain ⟨c, m⟩ := g
    simp [expandGroups, ih]

/-- C1 (counterexample).  For the instruction `1 mcq of 1 marks each`
with required total 10, the structured branch detects one 1-mark slot
and the trailing-slot pass can only add one unit, so the returned plan
is `[2]` with sum 2, not 10. -/
theorem calculate_marks_distribution_counterexample :
    (1 : Nat) ≤ 10 ∧
      calculate_marks_distribution 10 promptOneMcq = some [2] ∧
      ¬([2] : List Nat).sum = 10 := by
  refine ⟨by decide, by decide, by decide⟩

/-- C1 (amended).  The Planner's guarantee holds branchwise: in the
structured branch whenever the detected groups yield at least one slot
and the difference between the detected sum and the required total is
absorbable by the one-unit trailing pass (`reconcileOK`); in the loose
and default branches whenever the computation returns at all (a loose
count of 0 raises `ZeroDivisionError` in the source, modelled as
`none`). -/
theorem calculate_marks_distribution_amended :
    (∀ (prompt : Str) (total : Nat) (plan : List Nat),
        parseGroups prompt ≠ [] →
        calculate_marks_distribution total prompt = some plan →
        1 ≤ (expandGroups (parseGroups prompt)).length →
        reconcileOK (expandGroups (parseGroups prompt)) total →
        plan.sum = total ∧ 1 ≤ plan.length) ∧
    (∀ (prompt : Str) (total : Nat) (plan : List Nat),
        parseGroups prompt = [] →
        calculate_marks_distribution total prompt = some plan →
        plan.sum = total ∧ 1 ≤ plan.length) := by
  constructor
  · intro prompt total plan hne hcalc hexp hok
    simp only [calculate_marks_distribution] at hcalc
    rw [if_pos hne] at hcalc
    have hplan : plan = reconcile (expandGroups (parseGroups prompt)) total :=
      ((Option.some.injEq _ _).mp hcalc).symm
    subst hplan
    exact ⟨reconcile_sum _ _ hok, by rw [reconcile_length]; exact hexp⟩
  · intro prompt total plan hnil hcalc
    simp only [calculate_marks_distribution] at hcalc
    rw [if_neg (by rw [hnil]; exact fun h => h rfl)] at hcalc
    split at hcalc
    · next n hsearch =>
      split at hcalc
      · cases hcalc
      · next hn =>
        have hplan : plan = evenSplit n total := ((Option.some.injEq _ _).mp hcalc).symm
        subst hplan
        have hn1 : 1 ≤ n := by omega
        refine ⟨evenSplit_sum hn1 total, ?_⟩
        rw [evenSplit_length hn1]
        exact hn1
    · next hsearch =>
      have hplan : plan = evenSplit (defaultNumQuestions (toLowerStr prompt) total) total :=
        ((Option.some.injEq _ _).mp hcalc).symm
      subst hplan
      have hpos := defaultNumQuestions_pos (toLowerStr prompt) total
      refine ⟨evenSplit_sum hpos total, ?_⟩
      rw [evenSplit_length hpos]
      exact hpos

/-- Witness for the amended C1: the structured branch on
`2 mcqs of 5 marks each` with total 12 (difference 2 over 2 slots) and
the loose branch on `8 questions` with total 40. -/
theorem calculate_marks_distribution_amended_witness :
    (calculate_marks_distribution 12 promptTwoMcqs = some [6, 6] ∧
      ([6, 6] : List Nat).sum = 12) ∧
    (calculate_marks_distribution 40 promptEightQuestions = some [5, 5, 5, 5, 5, 5, 5, 5] ∧
      ([5, 5, 5, 5, 5, 5, 5, 5] : List Nat).sum = 40) := by
  constructor
  · refine ⟨by decide, ?_⟩
    exact (calculate_marks_distribution_amended.1 promptTwoMcqs 12 [6, 6] (by decide)
      (by decide) (by decide) (by decide)).1
  · refine ⟨by decide, ?_⟩
    exact (calculate_marks_distribution_amended.2 promptEightQuestions 40 [5, 5, 5, 5, 5, 5, 5, 5]
      (by decide) (by decide)).1

/-- C9.  For `10 mcqs of 1 marks each, 5 short questions of 2 marks
each` with total 20 the Planner returns ten 1-mark slots followed by
five 2-mark slots, length 15, sum 20. -/
theorem calculate_marks_distribution_scenario :
    calculate_marks_distribution 20 promptScenario =
        some [1, 1, 1, 1, 1, 1, 1, 1, 1, 1, 2, 2, 2, 2, 2] ∧
      ([1, 1, 1, 1, 1, 1, 1, 1, 1, 1, 2, 2, 2, 2, 2] : List Nat).sum = 20 ∧
      ([1, 1, 1, 1, 1, 1, 1, 1, 1, 1, 2, 2, 2, 2, 2] : List Nat).length = 15 := by
  refine ⟨by decide, by decide, by decide⟩

/-!
## Forced-match lemmas
-/

theorem sumMarks_cons (q : Question) (t : List Question) :
    sumMarks (q :: t) = q.marks + sumMarks t := by
  simp [sumMarks]

theorem sumMarks_ge_length {l : List Question} (h : ∀ q ∈ l, 1 ≤ q.marks) :
    (l.length : Int) ≤ sumMarks l := by
  induction l with
  | nil => simp [sumMarks]
  | cons q t ih =>
    have h1 := h q (List.mem_cons_self q t)
    have h2 := ih (fun x hx => h x (List.mem_cons.mpr (Or.inr hx)))
    rw [sumMarks_cons]
    simp only [List.length_cons]
    push_cast
    omega

theorem forceCloneChain_length (q : Question) (k : Nat) : (forceCloneChain q k).length = k := by
  induction k generalizing q with
  | zero => rfl
  | succ k ih => simp [forceCloneChain, ih]

theorem forceCloneChain_marks {q : Question} (h : 1 ≤ q.marks) (k : Nat) :
    ∀ x ∈ forceCloneChain q k, 1 ≤ x.marks := by
  induction k generalizing q with
  | zero => intro x hx; cases hx
  | succ k ih =>
    intro x hx
    simp only [forceCloneChain] at hx
    rcases List.mem_cons.mp hx with hx | hx
    · rw [hx]; exact h
    · exact ih (show 1 ≤ (forceClone q).marks from h) x hx

theorem forceCount_length {qs : List Question} {n : Nat} (hn : 1 ≤ n) :
    (forceCount qs n).length = n := by
  unfold forceCount
  split
  · simp [List.length_take]; omega
  · split
    · next hgt =>
      split
      · next lastq hlast =>
        simp [forceCloneChain_length]
        omega
      · simp [forceCloneChain_length]
        omega
    · next h1 h2 => omega

theorem forceCount_marks {qs : List Question} {n : Nat}
    (h : ∀ q ∈ qs, 1 ≤ q.marks) : ∀ q ∈ forceCount qs n, 1 ≤ q.marks := by
  unfold forceCount
  split
  · intro q hq
    exact h q (List.mem_of_mem_take hq)
  · split
    · split
      · next lastq hlast =>
        intro q hq
        rcases List.mem_append.mp hq with hq | hq
        · exact h q hq
        · exact forceCloneChain_marks (h lastq (getLast?_mem hlast)) _ q hq
      · intro q hq
        rcases List.mem_cons.mp hq with hq | hq
        · rw [hq]; exact le_refl 1
        · exact forceCloneChain_marks (le_refl 1) _ q hq
    · exact h

theorem addPer_length (per rem : Nat) : ∀ (l : List Question) (i : Nat),
    (addPer per rem i l).length = l.length := by
  intro l
  induction l with
  | nil => intro i; rfl
  | cons q t ih => intro i; simp [addPer, ih (i + 1)]

theorem cntBelow_eq_min : ∀ (len i rem : Nat), cntBelow i rem len = min (rem - i) len := by
  intro len
  induction len with
  | zero => intro i rem; simp [cntBelow]
  | succ len ih =>
    intro i rem
    simp only [cntBelow, ih (i + 1) rem]
    by_cases hi : i < rem
    · rw [if_pos hi]
      omega
    · rw [if_neg hi]
      omega

theorem addPer_sum (per rem : Nat) : ∀ (l : List Question) (i : Nat),
    sumMarks (addPer per rem i l) =
      sumMarks l + ((per * l.length + cntBelow i rem l.length : Nat) : Int) := by
  intro l
  induction l with
  | nil => intro i; simp [addPer, sumMarks, cntBelow]
  | cons q t ih =>
    intro i
    simp only [addPer]
    rw [sumMarks_cons, sumMarks_cons, ih (i + 1)]
    simp only [List.length_cons, cntBelow]
    by_cases hi : i < rem
    · rw [if_pos hi, if_pos hi]
      push_cast
      ring
    · rw [if_neg hi, if_neg hi]
      push_cast
      ring

theorem reduceMarks_length : ∀ (l : List Question) (d : Nat),
    (reduceMarks d l).length = l.length := by
  intro l
  induction l with
  | nil => intro d; rfl
  | cons q t ih =>
    intro d
    simp only [reduceMarks]
    split
    · simp [ih]
    · simp [ih]

theorem reduceMarks_sum : ∀ (l : List Question) (d : Nat),
    (∀ q ∈ l, 1 ≤ q.marks) → (d : Int) ≤ sumMarks l - l.length →
    sumMarks (reduceMarks d l) = sumMarks l - d := by
  intro l
  induction l with
  | nil =>
    intro d _ hcap
    have hred : reduceMarks d [] = [] := by cases d <;> rfl
    rw [hred]
    simp [sumMarks] at hcap ⊢
    omega
  | cons q t ih =>
    intro d hall hcap
    have hq1 : 1 ≤ q.marks := hall q (List.mem_cons_self q t)
    have hallt : ∀ x ∈ t, 1 ≤ x.marks := fun x hx => hall x (List.mem_cons.mpr (Or.inr hx))
    have hcapt : (t.length : Int) ≤ sumMarks t := sumMarks_ge_length hallt
    rw [sumMarks_cons] at hcap
    simp only [List.length_cons] at hcap
    simp only [reduceMarks]
    split
    · next hc =>
      have hd : 0 < d := by
        rcases Bool.and_eq_true_iff.mp hc with ⟨h1, _⟩
        simpa [decide_eq_true_eq] using h1
      have hm : (1 : Int) < q.marks := by
        rcases Bool.and_eq_true_iff.mp hc with ⟨_, h2⟩
        simpa [decide_eq_true_eq] using h2
      have htn : ((q.marks - 1).toNat : Int) = q.marks - 1 :=
        Int.toNat_of_nonneg (by omega)
      rw [sumMarks_cons]
      show q.marks - (min (q.marks - 1).toNat d : Nat) +
          sumMarks (reduceMarks (d - min (q.marks - 1).toNat d) t) =
        q.marks + sumMarks t - d
      rcases le_total ((q.marks - 1).toNat) d with hle | hle
      · rw [min_eq_left hle]
        rw [ih (d - (q.marks - 1).toNat) hallt (by omega)]
        omega
      · rw [min_eq_right hle]
        rw [Nat.sub_self]
        rw [ih 0 hallt (by omega)]
        omega
    · next hc =>
      have hor : d = 0 ∨ q.marks ≤ 1 := by
        by_contra hno
        push_neg at hno
        apply hc
        simp only [Bool.and_eq_true_iff, decide_eq_true_eq]
        omega
      rw [sumMarks_cons, sumMarks_cons]
      rw [ih d hallt (by omega)]
      omega

/-- Shared specification of `_force_exact_match` with a truthy expected
count: exact count and exact sum (used both for C2 and for the amended
C4). -/
theorem force_exact_match_spec (qs : List Question) (required : Int) (m : Nat)
    (hall : ∀ q ∈ qs, 1 ≤ q.marks) (hm : 1 ≤ m) (hmr : (m : Int) ≤ required) :
    (force_exact_match qs required (some m)).length = m ∧
      sumMarks (force_exact_match qs required (some m)) = required := by
  obtain ⟨k, rfl⟩ : ∃ k, m = k + 1 := ⟨m - 1, by omega⟩
  unfold force_exact_match
  simp only []
  have hlen1 : (forceCount qs (k + 1)).length = k + 1 := forceCount_length (by omega)
  have hall1 : ∀ q ∈ forceCount qs (k + 1), 1 ≤ q.marks := forceCount_marks hall
  have hge : ((k + 1 : Nat) : Int) ≤ sumMarks (forceCount qs (k + 1)) := by
    have h := sumMarks_ge_length hall1
    rw [hlen1] at h
    exact h
  split
  · next heq => exact ⟨hlen1, heq⟩
  · next hne =>
    split
    · next hlt =>
      rw [if_neg (by omega : ¬(forceCount qs (k + 1)).length = 0),
        if_neg (by omega : ¬(forceCount qs (k + 1)).length = 0)]
      constructor
      · rw [addPer_length, hlen1]
      · rw [addPer_sum]
        rw [cntBelow_eq_min, hlen1]
        have hmod :
            ((required - sumMarks (forceCount qs (k + 1))).toNat % (k + 1)) < k + 1 :=
          Nat.mod_lt _ (by omega)
        have hdm :
            (required - sumMarks (forceCount qs (k + 1))).toNat / (k + 1) * (k + 1) +
                (required - sumMarks (forceCount qs (k + 1))).toNat % (k + 1) =
              (required - sumMarks (forceCount qs (k + 1))).toNat := by
          rw [Nat.mul_comm]
          exact Nat.div_add_mod _ _
        have htn : (((required - sumMarks (forceCount qs (k + 1))).toNat : Nat) : Int) =
            required - sumMarks (forceCount qs (k + 1)) :=
          Int.toNat_of_nonneg (by omega)
        have hminr :
            min ((required - sumMarks (forceCount qs (k + 1))).toNat % (k + 1) - 0) (k + 1) =
              (required - sumMarks (forceCount qs (k + 1))).toNat % (k + 1) := by
          rw [Nat.sub_zero]
          exact min_eq_left (le_of_lt hmod)
        rw [hminr]
        rw [hdm]
        omega
    · next hnlt =>
      constructor
      · rw [reduceMarks_length, hlen1]
      · rw [reduceMarks_sum _ _ hall1 ?_]
        · rw [Int.toNat_of_nonneg (by omega)]
          omega
        · rw [Int.toNat_of_nonneg (by omega), hlen1]
          push_cast
          omega

/-- C2.  With survivors all worth at least 1 mark, a truthy expected
count `m ≥ 1` and a required total of at least `m`, Forced-Match
returns exactly `m` questions summing exactly to the required total
(including from an empty survivor list, via the synthesized placeholder
and its clones). -/
theorem force_exact_match_count_and_sum (qs : List Question) (required : Int) (m : Nat)
    (hall : ∀ q ∈ qs, 1 ≤ q.marks) (hm : 1 ≤ m) (hmr : (m : Int) ≤ required) :
    (force_exact_match qs required (some m)).length = m ∧
      sumMarks (force_exact_match qs required (some m)) = required :=
  force_exact_match_spec qs required m hall hm hmr

/-- Witness for C2: the empty survivor list with expected count 2 and
required total 3 yields the placeholder, one clone, and marks 2 + 1. -/
theorem force_exact_match_count_and_sum_witness :
    (force_exact_match [] 3 (some 2)).length = 2 ∧
      sumMarks (force_exact_match [] 3 (some 2)) = 3 :=
  force_exact_match_count_and_sum [] 3 2 (by intro q hq; cases hq) (by decide) (by decide)

/-!
## Verifier lemmas
-/

theorem insertByMarks_mem {q x : Question} : ∀ {l : List Question},
    x ∈ insertByMarks q l → x = q ∨ x ∈ l := by
  intro l
  induction l with
  | nil =>
    intro h
    rcases List.mem_cons.mp h with h | h
    · exact Or.inl h
    · cases h
  | cons h t ih =>
    intro hx
    simp only [insertByMarks] at hx
    split at hx
    · rcases List.mem_cons.mp hx with hx | hx
      · exact Or.inr (List.mem_cons.mpr (Or.inl hx))
      · rcases ih hx with hx | hx
        · exact Or.inl hx
        · exact Or.inr (List.mem_cons.mpr (Or.inr hx))
    · rcases List.mem_cons.mp hx with hx | hx
      · exact Or.inl hx
      · exact Or.inr hx

theorem sortByMarks_mem {x : Question} : ∀ {l : List Question},
    x ∈ sortByMarks l → x ∈ l := by
  intro l
  induction l with
  | nil => intro h; cases h
  | cons q t ih =>
    intro hx
    simp only [sortByMarks] at hx
    rcases insertByMarks_mem hx with hx | hx
    · exact List.mem_cons.mpr (Or.inl hx)
    · exact List.mem_cons.mpr (Or.inr (ih hx))

theorem greedyTake_mem {target : Int} {x : Question} : ∀ {l : List Question} {tot : Int},
    x ∈ greedyTake target l tot → x ∈ l := by
  intro l
  induction l with
  | nil => intro tot h; cases h
  | cons q t ih =>
    intro tot hx
    simp only [greedyTake] at hx
    split at hx
    · rcases List.mem_cons.mp hx with hx | hx
      · exact List.mem_cons.mpr (Or.inl hx)
      · exact List.mem_cons.mpr (Or.inr (ih hx))
    · exact List.mem_cons.mpr (Or.inr (ih hx))

theorem incFirstQ_marks {l : List Question} (h : ∀ q ∈ l, 1 ≤ q.marks) : ∀ (k : Nat),
    ∀ q ∈ incFirstQ k l, 1 ≤ q.marks := by
  induction l with
  | nil => intro k q hq; cases k <;> cases hq
  | cons x t ih =>
    intro k q hq
    cases k with
    | zero => exact h q hq
    | succ k =>
      simp only [incFirstQ] at hq
      rcases List.mem_cons.mp hq with hq | hq
      · rw [hq]
        have := h x (List.mem_cons_self x t)
        show 1 ≤ x.marks + 1
        omega
      · exact ih (fun y hy => h y (List.mem_cons.mpr (Or.inr hy))) k q hq

theorem adjust_cons (x : Question) (t : List Question) (target : Int) :
    adjust_questions_to_marks (x :: t) target =
      if sumMarks (x :: t) = target then x :: t
      else if target < sumMarks (x :: t) then greedyTake target (sortByMarks (x :: t)) 0
      else incFirstQ (min (target - sumMarks (x :: t)).toNat (x :: t).length) (x :: t) := rfl

theorem adjust_marks_ge {qs : List Question} {target : Int}
    (h : ∀ q ∈ qs, 1 ≤ q.marks) : ∀ q ∈ adjust_questions_to_marks qs target, 1 ≤ q.marks := by
  cases qs with
  | nil => intro q hq; cases hq
  | cons x t =>
    intro q hq
    rw [adjust_cons] at hq
    split at hq
    · exact h q hq
    · split at hq
      · exact h q (sortByMarks_mem (greedyTake_mem hq))
      · exact incFirstQ_marks h _ q hq

/-- C4 (counterexample).  With the empty prompt (no declared count) the
planner's MarkPlan for total 20 has four slots; an empty survivor list
on the fifth verification failure is routed to assembly via Forced-Match
with no expected count, which leaves it empty: assembly is entered with
0 questions and 0 marks instead of 4 slots and 20 marks. -/
theorem verifier_decide_counterexample :
    verifier_decide [] 20 [] 4 = VOutcome.assembly [] ∧
      calculate_marks_distribution 20 [] = some [5, 5, 5, 5] ∧
      ([] : List Question).length ≠ ([5, 5, 5, 5] : List Nat).length ∧
      sumMarks [] ≠ 20 := by
  refine ⟨by decide, by decide, by decide, by decide⟩

/-- C4 (amended).  Whenever the verifier routes to assembly with a
prompt that declares an expected count `m ≥ 1`, with every survivor
worth at least 1 mark and the required total at least `m`, the list
handed to the Assembler has exactly `m` questions summing exactly to
the required total; the MarkPlan's length plays no role in the
verifier's check and the invariant `len(verified) == len(MarkPlan)` of
the claim does not hold in general. -/
theorem verifier_decide_amended (verified : List Question) (required : Int) (prompt : Str)
    (retry : Nat) (m : Nat) (out : List Question)
    (hall : ∀ q ∈ verified, 1 ≤ q.marks) (hm : extract_expected_count prompt = some m)
    (hm1 : 1 ≤ m) (hmr : (m : Int) ≤ required)
    (hout : verifier_decide verified required prompt retry = VOutcome.assembly out) :
    out.length = m ∧ sumMarks out = required := by
  obtain ⟨k, rfl⟩ : ∃ k, m = k + 1 := ⟨m - 1, by omega⟩
  unfold verifier_decide at hout
  rw [hm] at hout
  have hallv1 : ∀ q ∈ verifier_adjusted verified required (some (k + 1)), 1 ≤ q.marks := by
    unfold verifier_adjusted
    split
    · exact adjust_marks_ge hall
    · exact hall
  unfold verifier_route at hout
  split at hout
  · split at hout
    · cases hout
    · have heq : out =
          force_exact_match (verifier_adjusted verified required (some (k + 1))) required
            (some (k + 1)) :=
        ((VOutcome.assembly.injEq _ _).mp hout).symm
      rw [heq]
      exact force_exact_match_spec _ required (k + 1) hallv1 (by omega) hmr
  · next hok =>
    have heq : out = verifier_adjusted verified required (some (k + 1)) :=
      ((VOutcome.assembly.injEq _ _).mp hout).symm
    rw [not_or, not_not, not_not] at hok
    obtain ⟨hmarks, hcount⟩ := hok
    rcases hcount with hfalse | hlen
    · cases hfalse
    · rw [heq]
      exact ⟨hlen, hmarks⟩

/-- Witness for the amended C4: two placeholder questions against the
prompt `2 questions` with required total 2 pass the strict check and
reach assembly with count 2 and sum 2. -/
theorem verifier_decide_amended_witness :
    verifier_decide [dummyQuestion, dummyQuestion] 2 promptTwoQuestions 0 =
        VOutcome.assembly [dummyQuestion, dummyQuestion] ∧
      ([dummyQuestion, dummyQuestion] : List Question).length = 2 ∧
      sumMarks [dummyQuestion, dummyQuestion] = 2 := by
  refine ⟨by decide, ?_⟩
  exact verifier_decide_amended [dummyQuestion, dummyQuestion] 2 promptTwoQuestions 0 2
    [dummyQuestion, dummyQuestion] (by decide) (by decide) (by decide) (by decide) (by decide)

/-!
## C5, C6, C7, C8, C10
-/

/-- C5 (code evaluated at the failing input).  With two stored vectors
under identifiers `a` and `b`, removing `a` rebuilds via the source's
placeholder `_rebuild_index`, which recreates an *empty* index: the
retained identifier `b` keeps no vector, and every subsequent search
returns `(False, [])` instead of `b` with its original score. -/
theorem remove_question_rebuild_loses_retained :
    remove_question { index := [[0], [1]], question_ids := [['a'], ['b']] } ['a'] =
        { index := [], question_ids := [['b']] } ∧
      (∀ (encode : Str → List ℚ) (text : Str) (threshold : ℚ) (k : Nat),
        check_similarity (remove_question
            { index := [[0], [1]], question_ids := [['a'], ['b']] } ['a'])
          encode text threshold k = (false, [])) := by
  constructor
  · decide
  · intro encode text threshold k
    have h : remove_question { index := [[0], [1]], question_ids := [['a'], ['b']] } ['a'] =
        { index := [], question_ids := [['b']] } := by decide
    rw [h]
    unfold check_similarity
    simp

/-- C6 (counterexample).  Starting fresh, two generation-level failures
(each of which legitimately routes back to generation) advance the same
shared counter the verifier uses: the third verification mismatch is
then forced into assembly, whereas with no generation failures the
third mismatch still retries — so generation retries do consume the
verification budget. -/
theorem retry_budgets_shared_counterexample :
    (gen_fail_step (iterGenFails 1 0)).2 = sQuestionGeneration ∧
      (verify_mismatch_step (iterVerifyFails 2 (iterGenFails 0 0))).2 = sQuestionGeneration ∧
      (verify_mismatch_step (iterVerifyFails 2 (iterGenFails 2 0))).2 = sAssembly := by
  refine ⟨by decide, by decide, by decide⟩

/-- C6 (amended).  Generation-level failures and verification-level
mismatches increment one shared counter (`state.retry_count`):
generation failures route back to generation while the shared counter
stays below 3 and otherwise to `error`; verification mismatches route
back while it stays below 5 and otherwise force assembly.  The two caps
draw on the same budget, not on two independent ones. -/
theorem retry_budgets_shared_amended :
    ∀ (g v r : Nat),
      iterVerifyFails v (iterGenFails g r) = r + g + v ∧
      (verify_mismatch_step (iterVerifyFails v (iterGenFails g 0))).2 =
        (if g + v + 1 < 5 then sQuestionGeneration else sAssembly) ∧
      (gen_fail_step (iterGenFails g 0)).2 =
        (if g + 1 < 3 then sQuestionGeneration else sError) := by
  have hgen : ∀ (g r : Nat), iterGenFails g r = r + g := by
    intro g
    induction g with
    | zero => intro r; rfl
    | succ g ih =>
      intro r
      show iterGenFails g (r + 1) = r + (g + 1)
      rw [ih (r + 1)]
      omega
  have hver : ∀ (v r : Nat), iterVerifyFails v r = r + v := by
    intro v
    induction v with
    | zero => intro r; rfl
    | succ v ih =>
      intro r
      show iterVerifyFails v (r + 1) = r + (v + 1)
      rw [ih (r + 1)]
      omega
  intro g v r
  refine ⟨by rw [hgen, hver], ?_, ?_⟩
  · rw [hgen, hver]
    show (if 0 + g + v + 1 < 5 then sQuestionGeneration else sAssembly) =
      (if g + v + 1 < 5 then sQuestionGeneration else sAssembly)
    simp [Nat.zero_add]
  · rw [hgen]
    show (if 0 + g + 1 < 3 then sQuestionGeneration else sError) =
      (if g + 1 < 3 then sQuestionGeneration else sError)
    simp [Nat.zero_add]

/-- C7.  Duplicate rejection is exactly the threshold test on the
`1/(1+distance)` similarities of the `k = 5` nearest neighbours at
threshold 0.90; concretely, a candidate whose best similarity is 0.95
is rejected (dropped by the verifier filter) and one whose best
similarity is 0.80 is accepted. -/
theorem check_duplicate_threshold :
    (∀ (st : EmbState) (encode : Str → List ℚ) (text : Str),
        check_duplicate st encode text = true ↔
          ∃ p ∈ (check_similarity st encode text (9 / 10) 5).2, (9 : ℚ) / 10 ≤ p.2) ∧
    (check_similarity stOne encode95 dummyQuestion.question_text (9 / 10) 5 =
        (true, [(idPrev, 19 / 20)]) ∧
      check_duplicate stOne encode95 dummyQuestion.question_text = true ∧
      verifier_filter (check_duplicate stOne encode95) [dummyQuestion] = []) ∧
    (check_similarity stOne encode80 dummyQuestion.question_text (9 / 10) 5 =
        (false, [(idPrev, 4 / 5)]) ∧
      check_duplicate stOne encode80 dummyQuestion.question_text = false ∧
      verifier_filter (check_duplicate stOne encode80) [dummyQuestion] = [dummyQuestion]) := by
  refine ⟨?_, ?_, ?_⟩
  · intro st enc text
    unfold check_duplicate check_similarity
    split
    · simp
    · simp [List.any_eq_true]
  · have hsim : check_similarity stOne encode95 dummyQuestion.question_text (9 / 10) 5 =
        (true, [(idPrev, 19 / 20)]) := by
      simp only [check_similarity, stOne, encode95, searchKNN, similaritiesOf, sortByDist,
        insertByDist, l2sq]
      norm_num [List.filterMap_cons]
    have hdup : check_duplicate stOne encode95 dummyQuestion.question_text = true := by
      unfold check_duplicate
      rw [hsim]
    refine ⟨hsim, hdup, ?_⟩
    simp [verifier_filter, hdup]
  · have hsim : check_similarity stOne encode80 dummyQuestion.question_text (9 / 10) 5 =
        (false, [(idPrev, 4 / 5)]) := by
      simp only [check_similarity, stOne, encode80, searchKNN, similaritiesOf, sortByDist,
        insertByDist, l2sq]
      norm_num [List.filterMap_cons]
    have hdup : check_duplicate stOne encode80 dummyQuestion.question_text = false := by
      unfold check_duplicate
      rw [hsim]
    refine ⟨hsim, hdup, ?_⟩
    simp [verifier_filter, hdup]

/-- C8.  On JSON decode failure the Generation Agent substitutes the
deterministic fallback list (the five 10-mark templates truncated to
`total_marks / 10`) and routes to verification: no immediate retry (the
counter is untouched) and no transition to `error`. -/
theorem on_decode_failure_spec (s : GenState) :
    (on_decode_failure s).current_step = sVerification ∧
    (on_decode_failure s).current_step ≠ sError ∧
    (on_decode_failure s).retry_count = s.retry_count ∧
    (on_decode_failure s).generated_questions =
      create_fallback_questions s.subject s.total_marks ∧
    (on_decode_failure s).generated_questions.length = min (s.total_marks / 10) 5 := by
  refine ⟨rfl, ?_, rfl, rfl, ?_⟩
  · show sVerification ≠ sError
    decide
  show (create_fallback_questions s.subject s.total_marks).length = min (s.total_marks / 10) 5
  unfold create_fallback_questions
  rw [List.length_take]
  rfl

/-- C10.  An empty Similarity Index short-circuits `check_similarity`
to `(False, [])` for every query, threshold and `k`, so no candidate
is ever rejected as a duplicate while the index is empty. -/
theorem check_similarity_empty (st : EmbState) (encode : Str → List ℚ) (text : Str)
    (threshold : ℚ) (k : Nat) (h : st.index = []) :
    check_similarity st encode text threshold k = (false, []) ∧
      check_duplicate st encode text = false := by
  constructor
  · unfold check_similarity
    simp [h]
  · unfold check_duplicate check_similarity
    simp [h]

/-- Witness for C10 at the concrete empty index. -/
theorem check_similarity_empty_witness :
    check_similarity { index := [], question_ids := [] } (fun _ => []) [] 0 0 = (false, []) ∧
      check_duplicate { index := [], question_ids := [] } (fun _ => []) [] = false :=
  check_similarity_empty { index := [], question_ids := [] } (fun _ => []) [] 0 0 rfl
